import Mathlib

/-!
Verification of the lexical number-conversion library against its
specification.  The library converts between numeric primitives and byte
strings.  We shallowly embed the relevant code: bytes are `Nat` values
(the `u8` value), byte strings are `List Nat`, machine integers are `Int`
with explicit range checks mirroring the checked arithmetic of the source,
and fallible routines return `Except`.  Where a routine of the repository
is referenced but its defining file is not part of the source tree we have
(only its callers, declarations or tests are), the definition is modelled
from the specification; each such definition's doc comment says so.
-/

set_option maxRecDepth 8000

namespace LexicalSpec

/-- Error codes of the parser (spec section 6, the subset the claims need).
Each error is reported together with a byte index into the input. -/
inductive ErrorCode where
  | Overflow
  | Underflow
  | InvalidDigit
  | Empty
  | EmptyMantissa
  | EmptyExponent
deriving DecidableEq, Repr

/-- Whether a byte is an ASCII decimal digit (b'0'..=b'9'). -/
def isDigit (b : Nat) : Bool := 48 ≤ b && b ≤ 57

/-- Rust's `char::to_digit(radix)` restricted to byte values: digits `0-9`
map to 0..9, letters `a-z`/`A-Z` map to 10..35, and the result is kept only
when it is below the radix. -/
def toDigit (c radix : Nat) : Option Nat :=
  if 48 ≤ c && c ≤ 57 then (if c - 48 < radix then some (c - 48) else none)
  else if 97 ≤ c && c ≤ 122 then (if c - 97 + 10 < radix then some (c - 97 + 10) else none)
  else if 65 ≤ c && c ≤ 90 then (if c - 65 + 10 < radix then some (c - 65 + 10) else none)
  else none

/-- The two-digit lookup table `DIGIT_TO_BASE10_SQUARED` of
src/lexical-core/src/table/decimal.rs (lines 51-65), with each byte literal
written as its `u8` value (b'0' = 48, ..., b'9' = 57). -/
def DIGIT_TO_BASE10_SQUARED : List Nat := [
    48, 48, 48, 49, 48, 50, 48, 51, 48, 52, 48, 53, 48, 54, 48, 55, 48, 56, 48, 57,
    49, 48, 49, 49, 49, 50, 49, 51, 49, 52, 49, 53, 49, 54, 49, 55, 49, 56, 49, 57,
    50, 48, 50, 49, 50, 50, 50, 51, 50, 52, 50, 53, 50, 54, 50, 55, 50, 56, 50, 57,
    51, 48, 51, 49, 51, 50, 51, 51, 51, 52, 51, 53, 51, 54, 51, 55, 51, 56, 51, 57,
    52, 48, 52, 49, 52, 50, 52, 51, 52, 52, 52, 53, 52, 54, 52, 55, 52, 56, 52, 57,
    53, 48, 53, 49, 53, 50, 53, 51, 53, 52, 53, 53, 53, 54, 53, 55, 53, 56, 53, 57,
    54, 48, 54, 49, 54, 50, 54, 51, 54, 52, 54, 53, 54, 54, 54, 55, 54, 56, 54, 57,
    55, 48, 55, 49, 55, 50, 55, 51, 55, 52, 55, 53, 55, 54, 55, 55, 55, 56, 55, 57,
    56, 48, 56, 49, 56, 50, 56, 51, 56, 52, 56, 53, 56, 54, 56, 55, 56, 56, 56, 57,
    57, 48, 57, 49, 57, 50, 57, 51, 57, 52, 57, 53, 57, 54, 57, 55, 57, 56, 57, 57]

/-- Tag of the C-ABI option type (src/lexical-capi/src/option.rs, lines 6-11).
`repr(u32)` assigns discriminant 0 to `Some` and 1 to `None`. -/
inductive OptionTag where
  | someTag
  | noneTag
deriving DecidableEq

/-- The `repr(u32)` discriminant of an `OptionTag`. -/
def OptionTag.tagValue : OptionTag → Nat
  | .someTag => 0
  | .noneTag => 1

/-- Union of the C-ABI option type (src/lexical-capi/src/option.rs, lines
13-19): it holds either a value of `T` or the unit of the `none` field. -/
inductive OptionUnion (T : Type) where
  | value (v : T)
  | unit

/-- The C-ABI option type itself (src/lexical-capi/src/option.rs, lines
21-27): a tag plus the union. -/
structure COption (T : Type) where
  tag : OptionTag
  data : OptionUnion T

/-- The `From<StdOption<T>>` conversion (src/lexical-capi/src/option.rs,
lines 29-42). -/
def cOptionFrom {T : Type} : Option T → COption T
  | Option.some v => ⟨.someTag, .value v⟩
  | Option.none => ⟨.noneTag, .unit⟩

/-- The `Into<StdOption<T>>` conversion (src/lexical-capi/src/option.rs,
lines 44-53).  When the tag is `Some`, the union is read through its `value`
field; a `Some` tag over a `none` union is unreachable for values produced
by `cOptionFrom` (reading it would be undefined behaviour in the source),
and the model returns `none` there. -/
def cOptionInto {T : Type} : COption T → Option T
  | ⟨.someTag, .value v⟩ => some v
  | ⟨.someTag, .unit⟩ => none
  | ⟨.noneTag, _⟩ => none

/-- `is_valid_digit_separator` of src/lexical-core/src/util/format/flags.rs
(lines 251-261, the default `not(feature = "power_of_two")` build): an ASCII
byte that is neither a decimal digit nor a sign. -/
def is_valid_digit_separator (ch : Nat) : Bool :=
  if 48 ≤ ch && ch ≤ 57 then false
  else if ch = 43 || ch = 45 then false
  else ch < 128

/-- `is_valid_decimal_point` of flags.rs (lines 277-282). -/
def is_valid_decimal_point (ch : Nat) : Bool :=
  is_valid_digit_separator ch

/-- `is_valid_exponent_decimal` of flags.rs (lines 284-293). -/
def is_valid_exponent_decimal (ch : Nat) : Bool :=
  if 48 ≤ ch && ch ≤ 57 then false
  else if ch = 43 || ch = 45 then false
  else ch < 128

/-- `is_valid_exponent_backup` of flags.rs (lines 295-301). -/
def is_valid_exponent_backup (ch : Nat) : Bool :=
  is_valid_digit_separator ch

/-- `is_valid_punctuation` of flags.rs (lines 303-328).  Note the source
deliberately allows `exponent_decimal == exponent_backup` (its comment:
both exponent characters may be the same as long as each is valid). -/
def is_valid_punctuation (digit_separator decimal_point exponent_decimal exponent_backup : Nat) :
    Bool :=
  if digit_separator = decimal_point then false
  else if digit_separator = exponent_decimal then false
  else if digit_separator = exponent_backup then false
  else if decimal_point = exponent_decimal then false
  else if decimal_point = exponent_backup then false
  else true

/-- Modelled from the spec: the `NumberFormat` builder itself is not under
src/ (only util/format/flags.rs is); per spec sections 3 and 4.1 a
`NumberFormat` value is accepted by construction exactly when each
punctuation byte passes its validator and `is_valid_punctuation` holds on
the four of them.  The validators themselves are embedded from flags.rs. -/
def numberFormatPunctuationOk
    (digit_separator decimal_point exponent_decimal exponent_backup : Nat) : Bool :=
  is_valid_digit_separator digit_separator &&
  is_valid_decimal_point decimal_point &&
  is_valid_exponent_decimal exponent_decimal &&
  is_valid_exponent_backup exponent_backup &&
  is_valid_punctuation digit_separator decimal_point exponent_decimal exponent_backup

/-- Pairwise distinctness of the four punctuation bytes, as claim C7 states
it. -/
def punctuationPairwiseDistinct (ds dp ed eb : Nat) : Prop :=
  ds ≠ dp ∧ ds ≠ ed ∧ ds ≠ eb ∧ dp ≠ ed ∧ dp ≠ eb ∧ ed ≠ eb

/-- `RoundingKind` of the options API.  Its defining file is not under src/;
only `NearestTieEven` (the default) is exercised by the embedded code, the
other constructors stand for the alternative IEEE modes the spec names. -/
inductive RoundingKind where
  | NearestTieEven
  | NearestTieAwayZero
  | TowardPositiveInfinity
  | TowardNegativeInfinity
  | TowardZero
deriving DecidableEq

/-- `digit_separator_from_flags` of flags.rs (lines 413-418): the format is
a 64-bit word and the digit separator is the 7-bit field at bit 57 (the
`as u8` cast keeps 8 bits, the mask keeps 7, so the composition keeps 7). -/
def digit_separator_from_flags (flag : Nat) : Nat :=
  ((flag >>> 57) % 256) % 128

/-- `starts_with_n` of src/lexical-core/src/util/options.rs (lines 29-36). -/
def starts_with_n (bytes : List Nat) : Bool :=
  match bytes.head? with
  | some 78 => true
  | some 110 => true
  | _ => false

/-- `starts_with_i` of options.rs (lines 38-46). -/
def starts_with_i (bytes : List Nat) : Bool :=
  match bytes.head? with
  | some 73 => true
  | some 105 => true
  | _ => false

/-- `to_radix` of options.rs (lines 49-57, the `feature = "radix"` build the
claim presumes): the radix must lie in 2..=36. -/
def to_radix (radix : Nat) : Option Nat :=
  if 2 ≤ radix ∧ radix ≤ 36 then some radix else none

/-- `to_exponent_char` of options.rs (lines 70-77): the exponent character
must not be a digit in the chosen radix. -/
def to_exponent_char (exponent_char radix : Nat) : Option Nat :=
  match toDigit exponent_char radix with
  | none => some exponent_char
  | some _ => none

/-- `to_format_float` of options.rs (lines 89-98): the format's digit
separator must not be a digit in the radix and must differ from the
exponent character. -/
def to_format_float (format radix exponent_char : Nat) : Option Nat :=
  if toDigit (digit_separator_from_flags format) radix = none ∧
      digit_separator_from_flags format ≠ exponent_char then some format
  else none

/-- `to_rounding` of options.rs (lines 100-105, the `feature = "rounding"`
build): every rounding kind is accepted. -/
def to_rounding (rounding : RoundingKind) : Option RoundingKind :=
  some rounding

/-- `to_nan_string` of options.rs (lines 117-124). -/
def to_nan_string (nan_string : List Nat) : Option (List Nat) :=
  if starts_with_n nan_string then some nan_string else none

/-- `to_inf_string` of options.rs (lines 126-133). -/
def to_inf_string (inf_string : List Nat) : Option (List Nat) :=
  if starts_with_i inf_string then some inf_string else none

/-- `to_infinity_string` of options.rs (lines 135-146): the long infinity
string must be at least as long as the short one and start with I/i. -/
def to_infinity_string (infinity_string inf_string : List Nat) : Option (List Nat) :=
  if inf_string.length ≤ infinity_string.length ∧ starts_with_i infinity_string then
    some infinity_string
  else none

/-- `ParseFloatOptions` of options.rs (lines 272-298): the format is kept as
its 64-bit flag word, byte strings as byte lists. -/
structure ParseFloatOptions where
  lossy : Bool
  exponent_char : Nat
  radix : Nat
  format : Nat
  rounding : RoundingKind
  nan_string : List Nat
  inf_string : List Nat
  infinity_string : List Nat
deriving DecidableEq

/-- `ParseFloatOptions::create` of options.rs (lines 456-494): each field is
validated in turn and the first failure makes the whole construction return
`None`. -/
def ParseFloatOptions.create (lossy : Bool) (exponent_char radix format : Nat)
    (rounding : RoundingKind) (nan_string inf_string infinity_string : List Nat) :
    Option ParseFloatOptions :=
  match to_radix radix with
  | none => none
  | some radix2 =>
    match to_exponent_char exponent_char radix2 with
    | none => none
    | some ec2 =>
      match to_format_float format radix2 ec2 with
      | none => none
      | some format2 =>
        match to_rounding rounding with
        | none => none
        | some rounding2 =>
          match to_nan_string nan_string with
          | none => none
          | some nan2 =>
            match to_inf_string inf_string with
            | none => none
            | some inf2 =>
              match to_infinity_string infinity_string inf2 with
              | none => none
              | some infinity2 =>
                some ⟨lossy, ec2, radix2, format2, rounding2, nan2, inf2, infinity2⟩

/-- The failure conditions claim C8 lists for `ParseFloatOptions::create`
(radix out of range, exponent char a digit, digit separator a digit or the
exponent char, NaN string not starting with N/n, Inf string not starting
with I/i, Infinity string shorter than the Inf string). -/
def createFailCondClaimed (exponent_char radix format : Nat)
    (nan_string inf_string infinity_string : List Nat) : Prop :=
  ¬(2 ≤ radix ∧ radix ≤ 36) ∨
  (toDigit exponent_char radix).isSome = true ∨
  (toDigit (digit_separator_from_flags format) radix).isSome = true ∨
  digit_separator_from_flags format = exponent_char ∨
  starts_with_n nan_string = false ∨
  starts_with_i inf_string = false ∨
  infinity_string.length < inf_string.length

/-- The amended failure conditions: the claim's list plus the condition the
code also enforces, that the Infinity string starts with I/i. -/
def createFailCond (exponent_char radix format : Nat)
    (nan_string inf_string infinity_string : List Nat) : Prop :=
  createFailCondClaimed exponent_char radix format nan_string inf_string infinity_string ∨
  starts_with_i infinity_string = false

/-! ## The integer parser

The digit-accumulation loop lives in src/lexical-core/src/atoi/generic.rs,
which is not part of the source tree we have (src/lexical-core/src/atoi/api.rs
only dispatches to it); it is modelled below from spec section 4.2 and
constrained by the tests of atoi/api.rs.  Machine integers of the target
type are `Int` values confined to `MIN..=MAX`; the checked multiply-add of
the source is the range check after each exact step. -/

/-- Modelled from the spec: the digit loop of `standalone_no_separator`
(atoi/generic.rs, absent from src/).  Starting from accumulator `v` at byte
index `i`, each digit of the radix is folded in (negatively for a negative
sign, so `MIN` itself is reachable); a step that leaves `MIN..=MAX` stops
the parse with `Overflow` (positive) or `Underflow` (negative) at the index
of the offending digit; a non-digit byte ends the loop successfully. -/
def digitsLoop (radix : Nat) (MIN MAX : Int) (neg : Bool) :
    List Nat → Int → Nat → Except (ErrorCode × Nat) (Int × Nat)
  | [], v, i => .ok (v, i)
  | b :: rest, v, i =>
    match toDigit b radix with
    | none => .ok (v, i)
    | some d =>
      let v2 : Int := if neg then v * radix - d else v * radix + d
      if v2 < MIN ∨ MAX < v2 then
        .error ((if neg then ErrorCode.Underflow else ErrorCode.Overflow), i)
      else digitsLoop radix MIN MAX neg rest v2 (i + 1)

/-- Modelled from the spec: the digit section of the integer parse, entered
at byte index `i` after the optional sign.  An empty rest is `Empty`, a
first byte that is not a digit is `InvalidDigit` at its index, otherwise
the loop runs. -/
def atoiDigits (radix : Nat) (MIN MAX : Int) (neg : Bool)
    (bytes : List Nat) (i : Nat) : Except (ErrorCode × Nat) (Int × Nat) :=
  match bytes with
  | [] => .error (.Empty, i)
  | b :: _ =>
    if (toDigit b radix).isSome then digitsLoop radix MIN MAX neg bytes 0 i
    else .error (.InvalidDigit, i)

/-- Modelled from the spec: the partial integer parse of spec section 4.2
(`standalone_no_separator` plus the pointer-to-index wrapper of
atoi/api.rs): an optional sign (a minus sign is `InvalidDigit` at index 0
for an unsigned target, here `MIN = 0`), then the digit loop.  Returns the
parsed value and the count of consumed bytes. -/
def atoiPartial (radix : Nat) (MIN MAX : Int) (bytes : List Nat) :
    Except (ErrorCode × Nat) (Int × Nat) :=
  match bytes with
  | [] => .error (.Empty, 0)
  | b :: rest =>
    if b = 43 then atoiDigits radix MIN MAX false rest 1
    else if b = 45 then
      if MIN < 0 then atoiDigits radix MIN MAX true rest 1
      else .error (.InvalidDigit, 0)
    else atoiDigits radix MIN MAX false bytes 0

/-- The `to_complete` wrapper of src/lexical-core/src/util/traits.rs (lines
10-21): a partial parse result becomes a complete one; success requires the
whole input to have been processed, and a partial success that stops short
becomes `InvalidDigit` at the stopping index. -/
def to_complete {α : Type} (parse : List Nat → Except (ErrorCode × Nat) (α × Nat))
    (bytes : List Nat) : Except (ErrorCode × Nat) α :=
  match parse bytes with
  | .error e => .error e
  | .ok (value, processed) =>
    if processed = bytes.length then .ok value
    else .error (.InvalidDigit, processed)

/-- `i64::MIN`. -/
def i64MIN : Int := -(2 ^ 63)

/-- `i64::MAX`. -/
def i64MAX : Int := 2 ^ 63 - 1

/-- The partial decimal `i64` parse (`from_lexical_partial`). -/
def atoiPartialI64 (bytes : List Nat) : Except (ErrorCode × Nat) (Int × Nat) :=
  atoiPartial 10 i64MIN i64MAX bytes

/-- The complete decimal `i64` parse (`from_lexical`). -/
def atoiI64 (bytes : List Nat) : Except (ErrorCode × Nat) Int :=
  to_complete atoiPartialI64 bytes

/-! ## The float parser

The outer shape (sign, special-value dispatch, digit-region extraction) is
embedded from src/lexical-core/src/atof/api.rs together with spec section
4.1/4.3; the tiered rounding core (atof/algorithm/correct.rs, absent from
src/) is modelled from the spec: an in-range finite result is represented
by the exact rational value the digits denote (the core rounds that
rational to the nearest float), and the overflow/underflow classification
follows the spec's threshold rule on the scientific exponent.  The format
is the default `STANDARD` one (decimal, no digit separators, exponent
digits required), matching `ParseFloatOptions::default`. -/

/-- The outcome of a float parse, with the value of a finite in-range
number kept as the exact rational the digits denote.  `True` in the sign
slot means negative. -/
inductive FloatOutcome where
  | nan (neg : Bool)
  | inf (neg : Bool)
  | zero (neg : Bool)
  | finite (neg : Bool) (q : ℚ)
deriving DecidableEq

/-- ASCII lowercasing of one byte (`to_ascii_lowercase`, flags.rs lines
467-475). -/
def lowerByte (b : Nat) : Nat :=
  if 65 ≤ b ∧ b ≤ 90 then b + 32 else b

/-- Case-insensitive keyword match at the front of the input, as the
special-value matcher uses it (`case_insensitive_starts_with_iter`). -/
def startsWithCI (keyword bytes : List Nat) : Bool :=
  keyword.isPrefixOf (bytes.map lowerByte)

/-- The default short infinity string, b"inf". -/
def infStr : List Nat := [105, 110, 102]

/-- The default long infinity string, b"infinity". -/
def infinityStr : List Nat := [105, 110, 102, 105, 110, 105, 116, 121]

/-- The default NaN string, b"NaN", lowercased for the case-insensitive
match. -/
def nanStr : List Nat := [110, 97, 110]

/-- The value of a run of decimal digit bytes. -/
def digitsVal (l : List Nat) : Nat :=
  l.foldl (fun acc b => 10 * acc + (b - 48)) 0

/-- The exact rational `± mant · 10 ^ e`, built with `mkRat` so that it
evaluates by computation. -/
def decimalValue (neg : Bool) (mant : Nat) (e : Int) : ℚ :=
  mkRat ((if neg then -(mant : Int) else (mant : Int)) * 10 ^ e.toNat) (10 ^ (-e).toNat)

/-- `parse_infinity` of atof/api.rs (lines 61-90, default build): the long
infinity keyword is tried before the short one, a failed match is
`InvalidDigit` at the start of the digits.  `s` is the byte index where the
digits start (0 or 1). -/
def parseInf (neg : Bool) (digits : List Nat) (s : Nat) :
    Except (ErrorCode × Nat) (FloatOutcome × Nat) :=
  if startsWithCI infinityStr digits then .ok (.inf neg, s + infinityStr.length)
  else if startsWithCI infStr digits then .ok (.inf neg, s + infStr.length)
  else .error (.InvalidDigit, s)

/-- `parse_nan` of atof/api.rs (lines 92-119, default build). -/
def parseNan (neg : Bool) (digits : List Nat) (s : Nat) :
    Except (ErrorCode × Nat) (FloatOutcome × Nat) :=
  if startsWithCI nanStr digits then .ok (.nan neg, s + nanStr.length)
  else .error (.InvalidDigit, s)

/-- The optional sign in front of the exponent digits: the negativity and
what follows the sign byte. -/
def expSign (t : List Nat) : Bool × List Nat :=
  if t.head? = some 43 then (false, t.tail)
  else if t.head? = some 45 then (true, t.tail)
  else (false, t)

/-- The exponent region of the number: an optional sign then required
exponent digits; no digits is `EmptyExponent` at the index after the
optional sign.  `total` is the length of the whole input, so that
`total - rest.length` is the current byte index.  Returns the signed raw
exponent and the unconsumed rest. -/
def parseExponentDigits (total : Nat) (t : List Nat) :
    Except (ErrorCode × Nat) (Int × List Nat) :=
  let st := expSign t
  let eds := st.2.takeWhile isDigit
  let r3 := st.2.dropWhile isDigit
  if eds = [] then .error (.EmptyExponent, total - st.2.length)
  else .ok ((if st.1 then -(digitsVal eds : Int) else (digitsVal eds : Int)), r3)

/-- The optional exponent region: entered only at an `e`/`E` marker. -/
def parseExponent (total : Nat) (r2 : List Nat) :
    Except (ErrorCode × Nat) (Int × List Nat) :=
  if r2.head? = some 101 ∨ r2.head? = some 69 then parseExponentDigits total r2.tail
  else .ok (0, r2)

/-- Modelled from the spec: the classification of the numeric result (spec
section 4.3).  `ids`/`fds` are the integer and fraction digit runs, `rawExp`
the signed exponent.  A zero mantissa is `±0`; otherwise the scientific
exponent `raw_exp + integer_digits - 1 - digits_start` (after stripping
leading integer zeros; `digits_start` counts leading fraction zeros when
the integer part is empty) is compared against the decimal overflow and
underflow thresholds of the target type: above `maxE` the result saturates
to `±Infinity`, below `minE` it rounds to `±0`, and in between the core
rounds the exact rational `mant · 10 ^ (rawExp - fds.length)`. -/
def classify (maxE minE : Int) (neg : Bool) (ids fds : List Nat) (rawExp : Int) :
    FloatOutcome :=
  let mant := digitsVal (ids ++ fds)
  if mant = 0 then .zero neg
  else
    let idsT := ids.dropWhile (fun b => b = 48)
    let sciExp : Int :=
      if idsT ≠ [] then rawExp + idsT.length - 1
      else rawExp - 1 - (fds.takeWhile (fun b => b = 48)).length
    if maxE < sciExp then .inf neg
    else if sciExp < minE then .zero neg
    else .finite neg (decimalValue neg mant (rawExp - fds.length))

/-- The numeric path: integer digits, an optional decimal point with
fraction digits, then the optional exponent region; an input with neither
integer nor fraction digits is `EmptyMantissa` at the digits start `s`. -/
def parseNumber (maxE minE : Int) (neg : Bool) (total : Nat) (digits : List Nat) (s : Nat) :
    Except (ErrorCode × Nat) (FloatOutcome × Nat) :=
  let ids := digits.takeWhile isDigit
  let r1 := digits.dropWhile isDigit
  let fds := if r1.head? = some 46 then r1.tail.takeWhile isDigit else []
  let r2 := if r1.head? = some 46 then r1.tail.dropWhile isDigit else r1
  if ids = [] ∧ fds = [] then .error (.EmptyMantissa, s)
  else
    match parseExponent total r2 with
    | .error e => .error e
    | .ok (rawExp, r3) =>
      .ok (classify maxE minE neg ids fds rawExp, total - r3.length)

/-- The body of the float parse after the sign (`parse_float_standard` of
atof/api.rs, lines 126-138): an empty digit string is `Empty` at the digit
start `s`, a first byte `i`/`I` or `n`/`N` routes to the special-value
matcher, anything else to the numeric path.  `total` is the length of the
whole input including the sign. -/
def parseFloatDigits (maxE minE : Int) (neg : Bool) (total : Nat)
    (digits : List Nat) (s : Nat) : Except (ErrorCode × Nat) (FloatOutcome × Nat) :=
  match digits with
  | [] => .error (.Empty, s)
  | b :: _ =>
    if b = 105 ∨ b = 73 then parseInf neg digits s
    else if b = 110 ∨ b = 78 then parseNan neg digits s
    else parseNumber maxE minE neg total digits s

/-- The standalone float parse (`atof` of atof/api.rs, lines 258-283, with
the pointer-to-index wrapper): the optional sign, then `parseFloatDigits`
on what follows. -/
def parseFloat (maxE minE : Int) (bytes : List Nat) :
    Except (ErrorCode × Nat) (FloatOutcome × Nat) :=
  if bytes.head? = some 43 then parseFloatDigits maxE minE false bytes.length bytes.tail 1
  else if bytes.head? = some 45 then parseFloatDigits maxE minE true bytes.length bytes.tail 1
  else parseFloatDigits maxE minE false bytes.length bytes 0

/-- The partial `f64` parse: decimal saturation thresholds on the
scientific exponent are 308 (above: past the largest finite double) and
-324 (below: smaller than the smallest subnormal). -/
def parseF64 (bytes : List Nat) : Except (ErrorCode × Nat) (FloatOutcome × Nat) :=
  parseFloat 308 (-324) bytes

/-- The partial `f32` parse: thresholds 38 and -45. -/
def parseF32 (bytes : List Nat) : Except (ErrorCode × Nat) (FloatOutcome × Nat) :=
  parseFloat 38 (-45) bytes

/-! ## ExtendedFloat export

`into_float` of src/lexical-core/src/float/convert.rs (lines 56-82) is in
the source tree; the per-type constants it reads come from the float trait
(not under src/) and are modelled from spec section 3 (the IEEE-754
binary64 layout). -/

/-- An extended-precision float: an unsigned mantissa and a binary
exponent (spec section 3, `ExtendedFloat<M>`). -/
structure ExtendedFloat where
  mant : Nat
  exp : Int
deriving DecidableEq

/-- The per-float-type constants `into_float` reads.  Modelled from the
spec: each float exposes its significand width, bias, denormal-exponent
floor, maximum exponent, hidden-bit mask, mantissa mask and infinity bit
pattern (spec section 3). -/
structure FloatLayout where
  MANTISSA_SIZE : Nat
  EXPONENT_BIAS : Int
  DENORMAL_EXPONENT : Int
  MAX_EXPONENT : Int
  HIDDEN_BIT_MASK : Nat
  MANTISSA_MASK : Nat
  INFINITY_BITS : Nat

/-- The IEEE-754 binary64 layout: 52 mantissa bits, bias 1075 (1023 + 52),
denormal exponent -1074, maximum exponent 0x7FF - 1075 = 972. -/
def f64Layout : FloatLayout :=
  ⟨52, 1075, -1074, 972, 2 ^ 52, 2 ^ 52 - 1, 0x7FF0000000000000⟩

/-- `into_float` of convert.rs (lines 56-82), returning the bit pattern of
the exported float: a zero mantissa or a sub-denormal exponent exports
zero, an exponent at or past `MAX_EXPONENT` exports the infinity bits, and
otherwise the biased exponent field and masked mantissa are composed
(with a zero exponent field for a denormal, whose hidden bit is clear). -/
def into_float (L : FloatLayout) (fp : ExtendedFloat) : Nat :=
  if fp.mant = 0 ∨ fp.exp < L.DENORMAL_EXPONENT then 0
  else if L.MAX_EXPONENT ≤ fp.exp then L.INFINITY_BITS
  else
    let expBits : Nat :=
      if fp.exp = L.DENORMAL_EXPONENT ∧ fp.mant &&& L.HIDDEN_BIT_MASK = 0 then 0
      else (fp.exp + L.EXPONENT_BIAS).toNat
    (fp.mant &&& L.MANTISSA_MASK) ||| (expBits <<< L.MANTISSA_SIZE)

end LexicalSpec

deriving instance DecidableEq for Except

namespace LexicalSpec

/-! ## Helper lemmas -/

/-- What acceptance by `is_valid_digit_separator` says about the byte. -/
theorem is_valid_digit_separator_eq_true (ch : Nat) :
    is_valid_digit_separator ch = true ↔
      ¬(48 ≤ ch ∧ ch ≤ 57) ∧ ch ≠ 43 ∧ ch ≠ 45 ∧ ch < 128 := by
  unfold is_valid_digit_separator
  split_ifs with h1 h2
  · simp only [Bool.and_eq_true, decide_eq_true_eq] at h1
    simp only [false_iff]
    intro h
    exact h.1 h1
  · simp only [Bool.or_eq_true, decide_eq_true_eq] at h2
    simp only [false_iff]
    intro h
    rcases h2 with h2 | h2
    · exact h.2.1 h2
    · exact h.2.2.1 h2
  · simp only [Bool.and_eq_true, Bool.or_eq_true, decide_eq_true_eq] at h1 h2
    simp only [decide_eq_true_eq]
    constructor
    · intro h
      refine ⟨h1, ?_, ?_, h⟩ <;> omega
    · intro h
      exact h.2.2.2

/-- What acceptance by `is_valid_exponent_decimal` says about the byte. -/
theorem is_valid_exponent_decimal_eq_true (ch : Nat) :
    is_valid_exponent_decimal ch = true ↔
      ¬(48 ≤ ch ∧ ch ≤ 57) ∧ ch ≠ 43 ∧ ch ≠ 45 ∧ ch < 128 := by
  unfold is_valid_exponent_decimal
  split_ifs with h1 h2
  · simp only [Bool.and_eq_true, decide_eq_true_eq] at h1
    simp only [false_iff]
    intro h
    exact h.1 h1
  · simp only [Bool.or_eq_true, decide_eq_true_eq] at h2
    simp only [false_iff]
    intro h
    rcases h2 with h2 | h2
    · exact h.2.1 h2
    · exact h.2.2.1 h2
  · simp only [Bool.and_eq_true, Bool.or_eq_true, decide_eq_true_eq] at h1 h2
    simp only [decide_eq_true_eq]
    constructor
    · intro h
      refine ⟨h1, ?_, ?_, h⟩ <;> omega
    · intro h
      exact h.2.2.2

/-- What acceptance by `is_valid_punctuation` says about the four bytes:
every pair is distinct except possibly the two exponent characters. -/
theorem is_valid_punctuation_eq_true (ds dp ed eb : Nat) :
    is_valid_punctuation ds dp ed eb = true ↔
      ds ≠ dp ∧ ds ≠ ed ∧ ds ≠ eb ∧ dp ≠ ed ∧ dp ≠ eb := by
  unfold is_valid_punctuation
  split_ifs <;> simp_all

/-! ## Claim theorems -/

/-- C9: the table `DIGIT_TO_BASE10_SQUARED` has exactly 200 entries, and for
every `n < 100` entry `2n` is the ASCII tens digit of `n` and entry `2n+1`
its ASCII units digit. -/
theorem digit_to_base10_squared_table_correct :
    DIGIT_TO_BASE10_SQUARED.length = 200 ∧
    ∀ n : Fin 100,
      DIGIT_TO_BASE10_SQUARED[(2 * n.val)]? = some (48 + n.val / 10) ∧
      DIGIT_TO_BASE10_SQUARED[(2 * n.val + 1)]? = some (48 + n.val % 10) := by
  decide

/-- C10: in the C-ABI option type tag 0 marks a present value and tag 1 its
absence, and for every type and every standard option the From/Into pair is
a round trip. -/
theorem coption_tag_and_roundtrip :
    OptionTag.someTag.tagValue = 0 ∧ OptionTag.noneTag.tagValue = 1 ∧
    ∀ (T : Type) (o : Option T),
      cOptionInto (cOptionFrom o) = o ∧
      ((cOptionFrom o).tag = OptionTag.someTag ↔ o.isSome = true) ∧
      ((cOptionFrom o).tag = OptionTag.noneTag ↔ o.isNone = true) := by
  refine ⟨rfl, rfl, ?_⟩
  intro T o
  cases o <;> simp [cOptionFrom, cOptionInto]

/-- C7 counterexample: the punctuation tuple (b, decimal point b46, both
exponent characters b94) passes every construction check even though the
two exponent characters coincide, so the accepted punctuation bytes are not
pairwise distinct.  (This is the source's own test input
`is_valid_punctuation(b, b46, b94, b94)`, flags.rs line 539.) -/
theorem punctuation_equal_exponent_chars_accepted :
    numberFormatPunctuationOk 95 46 94 94 = true ∧
    ¬ punctuationPairwiseDistinct 95 46 94 94 :=
  ⟨by decide, fun h => h.2.2.2.2.2 rfl⟩

/-- C7 (amended): every punctuation tuple accepted by construction has its
bytes pairwise distinct except that the primary and backup exponent
characters may coincide; none of the four is an ASCII digit and none is a
plus or minus sign. -/
theorem punctuation_accepted_distinct_amended (ds dp ed eb : Nat)
    (h : numberFormatPunctuationOk ds dp ed eb = true) :
    (ds ≠ dp ∧ ds ≠ ed ∧ ds ≠ eb ∧ dp ≠ ed ∧ dp ≠ eb) ∧
    (¬(48 ≤ ds ∧ ds ≤ 57) ∧ ¬(48 ≤ dp ∧ dp ≤ 57) ∧
      ¬(48 ≤ ed ∧ ed ≤ 57) ∧ ¬(48 ≤ eb ∧ eb ≤ 57)) ∧
    (ds ≠ 43 ∧ ds ≠ 45 ∧ dp ≠ 43 ∧ dp ≠ 45 ∧
      ed ≠ 43 ∧ ed ≠ 45 ∧ eb ≠ 43 ∧ eb ≠ 45) := by
  unfold numberFormatPunctuationOk at h
  simp only [Bool.and_eq_true] at h
  obtain ⟨⟨⟨⟨hds, hdp⟩, hed⟩, heb⟩, hp⟩ := h
  rw [is_valid_decimal_point] at hdp
  rw [is_valid_exponent_backup] at heb
  rw [is_valid_digit_separator_eq_true] at hds hdp heb
  rw [is_valid_exponent_decimal_eq_true] at hed
  rw [is_valid_punctuation_eq_true] at hp
  exact ⟨hp, ⟨hds.1, hdp.1, hed.1, heb.1⟩,
    hds.2.1, hds.2.2.1, hdp.2.1, hdp.2.2.1, hed.2.1, hed.2.2.1, heb.2.1, heb.2.2.1⟩

/-- C7 witness: the amended statement at the concrete accepted tuple
(separator b95, point b46, exponent b101, backup b94). -/
theorem punctuation_accepted_distinct_amended_witness :
    ((95 : Nat) ≠ 46 ∧ (95 : Nat) ≠ 101 ∧ (95 : Nat) ≠ 94 ∧
      (46 : Nat) ≠ 101 ∧ (46 : Nat) ≠ 94) ∧
    (¬(48 ≤ (95 : Nat) ∧ (95 : Nat) ≤ 57) ∧ ¬(48 ≤ (46 : Nat) ∧ (46 : Nat) ≤ 57) ∧
      ¬(48 ≤ (101 : Nat) ∧ (101 : Nat) ≤ 57) ∧ ¬(48 ≤ (94 : Nat) ∧ (94 : Nat) ≤ 57)) ∧
    ((95 : Nat) ≠ 43 ∧ (95 : Nat) ≠ 45 ∧ (46 : Nat) ≠ 43 ∧ (46 : Nat) ≠ 45 ∧
      (101 : Nat) ≠ 43 ∧ (101 : Nat) ≠ 45 ∧ (94 : Nat) ≠ 43 ∧ (94 : Nat) ≠ 45) :=
  punctuation_accepted_distinct_amended 95 46 101 94 (by decide)

end LexicalSpec

namespace LexicalSpec

/-- C8 counterexample: with radix 10, exponent char b101, a zero format
word (digit separator 0), default rounding, NaN string b"NaN", Inf string
b"inf" and the eight-byte Infinity string b"xnfinity", every condition the
claim lists holds good, yet `create` returns `None` (the Infinity string
does not start with I/i, a condition the claim omits). -/
theorem parse_float_options_create_missing_condition :
    ParseFloatOptions.create false 101 10 0 RoundingKind.NearestTieEven
      [78, 97, 78] [105, 110, 102] [120, 110, 102, 105, 110, 105, 116, 121] = none ∧
    ¬ createFailCondClaimed 101 10 0
      [78, 97, 78] [105, 110, 102] [120, 110, 102, 105, 110, 105, 116, 121] := by
  constructor
  · decide
  · unfold createFailCondClaimed
    decide

end LexicalSpec

namespace LexicalSpec

/-- `to_radix` fails exactly off the 2..=36 range. -/
theorem to_radix_none (radix : Nat) :
    to_radix radix = none ↔ ¬(2 ≤ radix ∧ radix ≤ 36) := by
  unfold to_radix; split_ifs with h <;> simp [h]

/-- `to_radix` succeeds with the radix itself, in range. -/
theorem to_radix_some (radix r2 : Nat) (h : to_radix radix = some r2) :
    r2 = radix ∧ (2 ≤ radix ∧ radix ≤ 36) := by
  unfold to_radix at h; split_ifs at h with hr <;> simp_all

/-- `to_exponent_char` fails exactly when the character is a digit. -/
theorem to_exponent_char_none (c radix : Nat) :
    to_exponent_char c radix = none ↔ (toDigit c radix).isSome = true := by
  unfold to_exponent_char; cases h : toDigit c radix <;> simp

/-- `to_exponent_char` succeeds with the character itself, not a digit. -/
theorem to_exponent_char_some (c radix e : Nat) (h : to_exponent_char c radix = some e) :
    e = c ∧ toDigit c radix = none := by
  unfold to_exponent_char at h; cases hd : toDigit c radix <;> rw [hd] at h <;> simp_all

/-- `to_format_float` fails exactly when the digit separator is a digit or
the exponent character. -/
theorem to_format_float_none (f radix e : Nat) :
    to_format_float f radix e = none ↔
      (toDigit (digit_separator_from_flags f) radix).isSome = true ∨
      digit_separator_from_flags f = e := by
  unfold to_format_float
  split_ifs with h
  · simp only [reduceCtorEq, false_iff]
    intro hc
    rcases hc with hc | hc
    · rw [h.1] at hc; exact absurd hc (by simp)
    · exact h.2 hc
  · simp only [eq_self_iff_true, true_iff]
    rcases Classical.em (toDigit (digit_separator_from_flags f) radix = none) with hd | hd
    · right
      by_contra hne
      exact h ⟨hd, hne⟩
    · left
      cases hv : toDigit (digit_separator_from_flags f) radix with
      | none => exact absurd hv hd
      | some v => rfl

/-- `to_format_float` succeeds with the format itself. -/
theorem to_format_float_some (f radix e f2 : Nat) (h : to_format_float f radix e = some f2) :
    f2 = f := by
  unfold to_format_float at h; split_ifs at h <;> simp_all

/-- `to_nan_string` fails exactly when the string does not start with N/n. -/
theorem to_nan_string_none (s : List Nat) :
    to_nan_string s = none ↔ starts_with_n s = false := by
  unfold to_nan_string; split_ifs with h <;> simp_all

/-- `to_nan_string` succeeds with the string itself. -/
theorem to_nan_string_some (s s2 : List Nat) (h : to_nan_string s = some s2) :
    s2 = s ∧ starts_with_n s = true := by
  unfold to_nan_string at h; split_ifs at h <;> simp_all

/-- `to_inf_string` fails exactly when the string does not start with I/i. -/
theorem to_inf_string_none (s : List Nat) :
    to_inf_string s = none ↔ starts_with_i s = false := by
  unfold to_inf_string; split_ifs with h <;> simp_all

/-- `to_inf_string` succeeds with the string itself. -/
theorem to_inf_string_some (s s2 : List Nat) (h : to_inf_string s = some s2) :
    s2 = s ∧ starts_with_i s = true := by
  unfold to_inf_string at h; split_ifs at h <;> simp_all

/-- `to_infinity_string` fails exactly when the long string is shorter than
the short one or does not start with I/i. -/
theorem to_infinity_string_none (s8 s3 : List Nat) :
    to_infinity_string s8 s3 = none ↔ s8.length < s3.length ∨ starts_with_i s8 = false := by
  unfold to_infinity_string
  split_ifs with h
  · simp only [reduceCtorEq, false_iff]
    intro hc
    rcases hc with hc | hc
    · omega
    · rw [h.2] at hc; exact absurd hc (by simp)
  · simp only [eq_self_iff_true, true_iff]
    rcases Classical.em (s3.length ≤ s8.length) with hl | hl
    · right
      by_contra hi
      simp only [Bool.not_eq_false] at hi
      exact h ⟨hl, hi⟩
    · left; omega

/-- `to_infinity_string` succeeds with the long string itself. -/
theorem to_infinity_string_some (s8 s3 s2 : List Nat) (h : to_infinity_string s8 s3 = some s2) :
    s2 = s8 ∧ s3.length ≤ s8.length ∧ starts_with_i s8 = true := by
  unfold to_infinity_string at h; split_ifs at h <;> simp_all

/-- C8 (amended): `ParseFloatOptions::create` returns `None` exactly when
one of the validity conditions fails -- the claim's list extended with the
condition that the Infinity string must start with I/i -- and otherwise
returns `Some` options carrying exactly the given fields. -/
theorem parse_float_options_create_amended (lossy : Bool)
    (exponent_char radix format : Nat) (rounding : RoundingKind)
    (nan_string inf_string infinity_string : List Nat) :
    (ParseFloatOptions.create lossy exponent_char radix format rounding
        nan_string inf_string infinity_string = none ↔
      createFailCond exponent_char radix format nan_string inf_string infinity_string) ∧
    ∀ opts, ParseFloatOptions.create lossy exponent_char radix format rounding
        nan_string inf_string infinity_string = some opts →
      opts = ⟨lossy, exponent_char, radix, format, rounding,
              nan_string, inf_string, infinity_string⟩ := by
  unfold ParseFloatOptions.create createFailCond createFailCondClaimed
  constructor
  · constructor
    · intro h
      split at h
      case _ heq => exact Or.inl (Or.inl ((to_radix_none radix).mp heq))
      case _ r2 heq =>
        obtain ⟨hr2, hr⟩ := to_radix_some radix r2 heq
        rw [hr2] at h
        split at h
        case _ heq2 => exact Or.inl (Or.inr (Or.inl ((to_exponent_char_none _ _).mp heq2)))
        case _ e2 heq2 =>
          obtain ⟨he2, hd⟩ := to_exponent_char_some _ _ _ heq2
          rw [he2] at h
          split at h
          case _ heq3 =>
            rcases (to_format_float_none _ _ _).mp heq3 with hc | hc
            · exact Or.inl (Or.inr (Or.inr (Or.inl hc)))
            · exact Or.inl (Or.inr (Or.inr (Or.inr (Or.inl hc))))
          case _ f2 heq3 =>
            split at h
            case _ heq4 => exact absurd heq4 (by simp [to_rounding])
            case _ r4 heq4 =>
              split at h
              case _ heq5 =>
                exact Or.inl (Or.inr (Or.inr (Or.inr (Or.inr (Or.inl
                  ((to_nan_string_none _).mp heq5))))))
              case _ n5 heq5 =>
                split at h
                case _ heq6 =>
                  exact Or.inl (Or.inr (Or.inr (Or.inr (Or.inr (Or.inr (Or.inl
                    ((to_inf_string_none _).mp heq6)))))))
                case _ i6 heq6 =>
                  obtain ⟨hi6, hi⟩ := to_inf_string_some _ _ heq6
                  rw [hi6] at h
                  split at h
                  case _ heq7 =>
                    rcases (to_infinity_string_none _ _).mp heq7 with hc | hc
                    · exact Or.inl (Or.inr (Or.inr (Or.inr (Or.inr (Or.inr (Or.inr hc))))))
                    · exact Or.inr hc
                  case _ y7 heq7 => exact absurd h (by simp)
    · intro hc
      split
      case _ heq => rfl
      case _ r2 heq =>
        obtain ⟨hr2, hr⟩ := to_radix_some radix r2 heq
        rw [hr2]
        split
        case _ heq2 => rfl
        case _ e2 heq2 =>
          obtain ⟨he2, hd⟩ := to_exponent_char_some _ _ _ heq2
          rw [he2]
          split
          case _ heq3 => rfl
          case _ f2 heq3 =>
            have hf : ¬((toDigit (digit_separator_from_flags format) radix).isSome = true ∨
                digit_separator_from_flags format = exponent_char) := by
              rw [← to_format_float_none format radix exponent_char, heq3]
              simp
            split
            case _ heq4 => rfl
            case _ r4 heq4 =>
              split
              case _ heq5 => rfl
              case _ n5 heq5 =>
                obtain ⟨hn5, hn⟩ := to_nan_string_some _ _ heq5
                split
                case _ heq6 => rfl
                case _ i6 heq6 =>
                  obtain ⟨hi6, hi⟩ := to_inf_string_some _ _ heq6
                  rw [hi6]
                  split
                  case _ heq7 => rfl
                  case _ y7 heq7 =>
                    obtain ⟨hy7, hlen, hsi⟩ := to_infinity_string_some _ _ _ heq7
                    exfalso
                    rcases hc with (hc | hc | hc | hc | hc | hc | hc) | hc
                    · exact hc hr
                    · rw [hd] at hc; exact absurd hc (by simp)
                    · exact hf (Or.inl hc)
                    · exact hf (Or.inr hc)
                    · rw [hn] at hc; exact absurd hc (by simp)
                    · rw [hi] at hc; exact absurd hc (by simp)
                    · omega
                    · rw [hsi] at hc; exact absurd hc (by simp)
  · intro opts hopts
    split at hopts
    case _ heq => exact absurd hopts (by simp)
    case _ r2 heq =>
      obtain ⟨hr2, hr⟩ := to_radix_some radix r2 heq
      split at hopts
      case _ heq2 => exact absurd hopts (by simp)
      case _ e2 heq2 =>
        obtain ⟨he2, hd⟩ := to_exponent_char_some _ _ _ heq2
        split at hopts
        case _ heq3 => exact absurd hopts (by simp)
        case _ f2 heq3 =>
          have hf2 := to_format_float_some _ _ _ _ heq3
          split at hopts
          case _ heq4 => exact absurd hopts (by simp)
          case _ r4 heq4 =>
            have hr4 : r4 = rounding := by
              simp only [to_rounding, Option.some.injEq] at heq4
              exact heq4.symm
            split at hopts
            case _ heq5 => exact absurd hopts (by simp)
            case _ n5 heq5 =>
              obtain ⟨hn5, hn⟩ := to_nan_string_some _ _ heq5
              split at hopts
              case _ heq6 => exact absurd hopts (by simp)
              case _ i6 heq6 =>
                obtain ⟨hi6, hi⟩ := to_inf_string_some _ _ heq6
                split at hopts
                case _ heq7 => exact absurd hopts (by simp)
                case _ y7 heq7 =>
                  obtain ⟨hy7, hlen, hsi⟩ := to_infinity_string_some _ _ _ heq7
                  have := Option.some.inj hopts
                  rw [← this, hr2, he2, hf2, hr4, hn5, hi6, hy7]

end LexicalSpec

namespace LexicalSpec

/-! ## Integer-loop lemmas -/

/-- One step of `digitsLoop` on a non-digit byte stops the loop. -/
theorem digitsLoop_cons_none (radix : Nat) (MIN MAX : Int) (neg : Bool)
    (b : Nat) (l : List Nat) (v : Int) (i : Nat) (hd : toDigit b radix = none) :
    digitsLoop radix MIN MAX neg (b :: l) v i = .ok (v, i) := by
  rw [digitsLoop, hd]

/-- One step of `digitsLoop` on a digit byte: range check, then either the
error at the current index or the recursive call. -/
theorem digitsLoop_cons_some (radix : Nat) (MIN MAX : Int) (neg : Bool)
    (b d : Nat) (l : List Nat) (v : Int) (i : Nat) (hd : toDigit b radix = some d) :
    digitsLoop radix MIN MAX neg (b :: l) v i =
      (if (if neg then v * radix - d else v * radix + d) < MIN ∨
          MAX < (if neg then v * radix - d else v * radix + d) then
        .error ((if neg then ErrorCode.Underflow else ErrorCode.Overflow), i)
      else digitsLoop radix MIN MAX neg l
        (if neg then v * radix - d else v * radix + d) (i + 1)) := by
  rw [digitsLoop, hd]

/-- A `digitsLoop` error is the overflow code of the active sign, its index
is at or past the start, and the digits before the error index parse
cleanly: the loop on just those digits succeeds and consumes up to the
error index. -/
theorem digitsLoop_error_take (radix : Nat) (MIN MAX : Int) (neg : Bool) :
    ∀ (bytes : List Nat) (v : Int) (i : Nat) (c : ErrorCode) (j : Nat),
      digitsLoop radix MIN MAX neg bytes v i = .error (c, j) →
      c = (if neg then ErrorCode.Underflow else ErrorCode.Overflow) ∧ i ≤ j ∧
      ∃ v2, digitsLoop radix MIN MAX neg (bytes.take (j - i)) v i = .ok (v2, j) := by
  intro bytes
  induction bytes with
  | nil =>
    intro v i c j h
    simp [digitsLoop] at h
  | cons b rest ih =>
    intro v i c j h
    rw [digitsLoop] at h
    cases hd : toDigit b radix with
    | none => rw [hd] at h; simp at h
    | some d =>
      rw [hd] at h
      simp only [] at h
      by_cases ho : (if neg then v * radix - d else v * radix + d) < MIN ∨
          MAX < (if neg then v * radix - d else v * radix + d)
      · rw [if_pos ho] at h
        obtain ⟨hc, hj⟩ : (if neg then ErrorCode.Underflow else ErrorCode.Overflow) = c ∧ i = j := by
          cases h; exact ⟨rfl, rfl⟩
        refine ⟨hc.symm, le_of_eq hj, v, ?_⟩
        rw [← hj]
        simp [digitsLoop]
      · rw [if_neg ho] at h
        obtain ⟨hc, hij, v2, hv2⟩ := ih _ _ _ _ h
        refine ⟨hc, by omega, v2, ?_⟩
        have hji : j - i = (j - (i + 1)) + 1 := by omega
        rw [hji]
        simp only [List.take_succ_cons]
        rw [digitsLoop, hd]
        simp only []
        rw [if_neg ho]
        exact hv2

/-- A successful `digitsLoop` run is reproduced by running on just the
consumed digits. -/
theorem digitsLoop_ok_take (radix : Nat) (MIN MAX : Int) (neg : Bool) :
    ∀ (bytes : List Nat) (v : Int) (i : Nat) (v2 : Int) (j : Nat),
      digitsLoop radix MIN MAX neg bytes v i = .ok (v2, j) →
      i ≤ j ∧ j ≤ i + bytes.length ∧
      digitsLoop radix MIN MAX neg (bytes.take (j - i)) v i = .ok (v2, j) := by
  intro bytes
  induction bytes with
  | nil =>
    intro v i v2 j h
    simp only [digitsLoop] at h
    obtain ⟨h1, h2⟩ : v = v2 ∧ i = j := by cases h; exact ⟨rfl, rfl⟩
    subst h1; subst h2
    exact ⟨le_refl _, by simp, by simp [digitsLoop]⟩
  | cons b rest ih =>
    intro v i v2 j h
    rw [digitsLoop] at h
    cases hd : toDigit b radix with
    | none =>
      rw [hd] at h
      obtain ⟨h1, h2⟩ : v = v2 ∧ i = j := by cases h; exact ⟨rfl, rfl⟩
      subst h1; subst h2
      refine ⟨le_refl _, by simp, ?_⟩
      simp only [Nat.sub_self, List.take_zero]
      simp [digitsLoop]
    | some d =>
      rw [hd] at h
      simp only [] at h
      by_cases ho : (if neg then v * radix - d else v * radix + d) < MIN ∨
          MAX < (if neg then v * radix - d else v * radix + d)
      · rw [if_pos ho] at h
        cases h
      · rw [if_neg ho] at h
        obtain ⟨hij, hlen, hv2⟩ := ih _ _ _ _ h
        refine ⟨by omega, by simp; omega, ?_⟩
        have hji : j - i = (j - (i + 1)) + 1 := by omega
        rw [hji]
        simp only [List.take_succ_cons]
        rw [digitsLoop, hd]
        simp only []
        rw [if_neg ho]
        exact hv2

/-- A `digitsLoop` run that stops inside its input (at a non-digit byte)
gives the same result when more bytes are appended. -/
theorem digitsLoop_ok_append (radix : Nat) (MIN MAX : Int) (neg : Bool) :
    ∀ (bytes : List Nat) (v : Int) (i : Nat) (v2 : Int) (j : Nat) (t : List Nat),
      digitsLoop radix MIN MAX neg bytes v i = .ok (v2, j) →
      j < i + bytes.length →
      digitsLoop radix MIN MAX neg (bytes ++ t) v i = .ok (v2, j) := by
  intro bytes
  induction bytes with
  | nil =>
    intro v i v2 j t h hlt
    simp only [digitsLoop, Except.ok.injEq, Prod.mk.injEq] at h
    simp only [List.length_nil] at hlt
    omega
  | cons b rest ih =>
    intro v i v2 j t h hlt
    rw [List.cons_append]
    cases hd : toDigit b radix with
    | none =>
      rw [digitsLoop_cons_none radix MIN MAX neg b rest v i hd] at h
      rw [digitsLoop_cons_none radix MIN MAX neg b (rest ++ t) v i hd]
      exact h
    | some d =>
      rw [digitsLoop_cons_some radix MIN MAX neg b d rest v i hd] at h
      rw [digitsLoop_cons_some radix MIN MAX neg b d (rest ++ t) v i hd]
      by_cases ho : (if neg then v * radix - d else v * radix + d) < MIN ∨
          MAX < (if neg then v * radix - d else v * radix + d)
      · rw [if_pos ho] at h
        cases h
      · rw [if_neg ho] at h
        rw [if_neg ho]
        exact ih _ _ _ _ t h (by simp at hlt ⊢; omega)

/-- A guarded loop (digit at the head) consumes at least one byte. -/
theorem digitsLoop_consumes (radix : Nat) (MIN MAX : Int) (neg : Bool)
    (b d : Nat) (l : List Nat) (v v2 : Int) (i j : Nat)
    (hd : toDigit b radix = some d)
    (h : digitsLoop radix MIN MAX neg (b :: l) v i = .ok (v2, j)) : i + 1 ≤ j := by
  rw [digitsLoop_cons_some radix MIN MAX neg b d l v i hd] at h
  by_cases ho : (if neg then v * radix - d else v * radix + d) < MIN ∨
      MAX < (if neg then v * radix - d else v * radix + d)
  · rw [if_pos ho] at h
    cases h
  · rw [if_neg ho] at h
    exact (digitsLoop_ok_take radix MIN MAX neg l _ _ _ _ h).1

/-- A successful `atoiDigits` run consumes at least one digit, stays within
the input, and is reproduced on just the consumed digits. -/
theorem atoiDigits_ok_take (radix : Nat) (MIN MAX : Int) (neg : Bool)
    (bytes : List Nat) (i : Nat) (v : Int) (n : Nat)
    (h : atoiDigits radix MIN MAX neg bytes i = .ok (v, n)) :
    i + 1 ≤ n ∧ n ≤ i + bytes.length ∧
    atoiDigits radix MIN MAX neg (bytes.take (n - i)) i = .ok (v, n) := by
  cases bytes with
  | nil => simp [atoiDigits] at h
  | cons b rest =>
    rw [atoiDigits] at h
    by_cases hb : (toDigit b radix).isSome = true
    · rw [if_pos hb] at h
      obtain ⟨d, hd⟩ := Option.isSome_iff_exists.mp hb
      have hcons := digitsLoop_consumes radix MIN MAX neg b d rest 0 v i n hd h
      obtain ⟨hij, hlen, htake⟩ := digitsLoop_ok_take radix MIN MAX neg (b :: rest) 0 i v n h
      have hsplit : (b :: rest).take (n - i) = b :: rest.take (n - i - 1) := by
        rw [show n - i = (n - i - 1) + 1 by omega]
        rfl
      refine ⟨hcons, by simpa using hlen, ?_⟩
      rw [hsplit]
      rw [atoiDigits, if_pos hb]
      rw [hsplit] at htake
      exact htake
    · rw [if_neg hb] at h
      cases h

/-- An `atoiDigits` run that stops inside its input gives the same result
when more bytes are appended. -/
theorem atoiDigits_ok_append (radix : Nat) (MIN MAX : Int) (neg : Bool)
    (bytes : List Nat) (i : Nat) (v : Int) (n : Nat) (t : List Nat)
    (h : atoiDigits radix MIN MAX neg bytes i = .ok (v, n))
    (hlt : n < i + bytes.length) :
    atoiDigits radix MIN MAX neg (bytes ++ t) i = .ok (v, n) := by
  cases bytes with
  | nil => simp [atoiDigits] at h
  | cons b rest =>
    rw [atoiDigits] at h
    rw [List.cons_append, atoiDigits]
    by_cases hb : (toDigit b radix).isSome = true
    · rw [if_pos hb] at h
      rw [if_pos hb]
      rw [← List.cons_append]
      exact digitsLoop_ok_append radix MIN MAX neg (b :: rest) 0 i v n t h (by simpa using hlt)
    · rw [if_neg hb] at h
      cases h

/-- A successful partial integer parse consumes between 1 and all of the
input bytes, and is reproduced on just the consumed prefix. -/
theorem atoiPartial_ok_take (radix : Nat) (MIN MAX : Int)
    (bytes : List Nat) (v : Int) (n : Nat)
    (h : atoiPartial radix MIN MAX bytes = .ok (v, n)) :
    1 ≤ n ∧ n ≤ bytes.length ∧
    atoiPartial radix MIN MAX (bytes.take n) = .ok (v, n) := by
  cases bytes with
  | nil => simp [atoiPartial] at h
  | cons b rest =>
    rw [atoiPartial] at h
    by_cases hb43 : b = 43
    · rw [if_pos hb43] at h
      obtain ⟨hij, hlen, htake⟩ := atoiDigits_ok_take radix MIN MAX false rest 1 v n h
      have hsplit : (b :: rest).take n = b :: rest.take (n - 1) := by
        rw [show n = (n - 1) + 1 by omega]
        simp
      refine ⟨by omega, by simp; omega, ?_⟩
      rw [hsplit, atoiPartial, if_pos hb43]
      exact htake
    · rw [if_neg hb43] at h
      by_cases hb45 : b = 45
      · rw [if_pos hb45] at h
        by_cases hmin : MIN < 0
        · rw [if_pos hmin] at h
          obtain ⟨hij, hlen, htake⟩ := atoiDigits_ok_take radix MIN MAX true rest 1 v n h
          have hsplit : (b :: rest).take n = b :: rest.take (n - 1) := by
            rw [show n = (n - 1) + 1 by omega]
            simp
          refine ⟨by omega, by simp; omega, ?_⟩
          rw [hsplit, atoiPartial, if_neg hb43, if_pos hb45, if_pos hmin]
          exact htake
        · rw [if_neg hmin] at h
          cases h
      · rw [if_neg hb45] at h
        obtain ⟨hij, hlen, htake⟩ := atoiDigits_ok_take radix MIN MAX false (b :: rest) 0 v n h
        have hsplit : (b :: rest).take n = b :: rest.take (n - 1) := by
          rw [show n = (n - 1) + 1 by omega]
          simp
        refine ⟨by omega, by simpa using hlen, ?_⟩
        rw [hsplit, atoiPartial, if_neg hb43, if_neg hb45]
        rw [Nat.sub_zero, hsplit] at htake
        exact htake

/-- A partial integer parse that stops inside its input gives the same
result when more bytes are appended: trailing garbage never turns a
partial success into an error. -/
theorem atoiPartial_ok_append (radix : Nat) (MIN MAX : Int)
    (bytes : List Nat) (v : Int) (n : Nat) (t : List Nat)
    (h : atoiPartial radix MIN MAX bytes = .ok (v, n))
    (hlt : n < bytes.length) :
    atoiPartial radix MIN MAX (bytes ++ t) = .ok (v, n) := by
  cases bytes with
  | nil => simp [atoiPartial] at h
  | cons b rest =>
    rw [atoiPartial] at h
    rw [List.cons_append, atoiPartial]
    by_cases hb43 : b = 43
    · rw [if_pos hb43] at h
      rw [if_pos hb43]
      exact atoiDigits_ok_append radix MIN MAX false rest 1 v n t h (by simp at hlt; omega)
    · rw [if_neg hb43] at h
      rw [if_neg hb43]
      by_cases hb45 : b = 45
      · rw [if_pos hb45] at h
        rw [if_pos hb45]
        by_cases hmin : MIN < 0
        · rw [if_pos hmin] at h
          rw [if_pos hmin]
          exact atoiDigits_ok_append radix MIN MAX true rest 1 v n t h (by simp at hlt; omega)
        · rw [if_neg hmin] at h
          cases h
      · rw [if_neg hb45] at h
        rw [if_neg hb45]
        rw [← List.cons_append]
        exact atoiDigits_ok_append radix MIN MAX false (b :: rest) 0 v n t h (by simpa using hlt)

/-! ## Float-parser error enumeration -/

/-- The exponent-digit region only ever reports `EmptyExponent`. -/
theorem parseExponentDigits_error (total : Nat) (t : List Nat) (e : ErrorCode) (i : Nat)
    (h : parseExponentDigits total t = .error (e, i)) : e = .EmptyExponent := by
  simp only [parseExponentDigits, expSign] at h
  split_ifs at h
  all_goals first
    | (cases h; rfl)
    | cases h

/-- The exponent region only ever reports `EmptyExponent`. -/
theorem parseExponent_error (total : Nat) (r2 : List Nat) (e : ErrorCode) (i : Nat)
    (h : parseExponent total r2 = .error (e, i)) : e = .EmptyExponent := by
  unfold parseExponent at h
  by_cases hc : r2.head? = some 101 ∨ r2.head? = some 69
  · rw [if_pos hc] at h
    exact parseExponentDigits_error _ _ _ _ h
  · rw [if_neg hc] at h
    cases h

/-- The numeric path only ever reports `EmptyMantissa` or `EmptyExponent`. -/
theorem parseNumber_error (maxE minE : Int) (neg : Bool) (total : Nat)
    (digits : List Nat) (s : Nat) (e : ErrorCode) (i : Nat)
    (h : parseNumber maxE minE neg total digits s = .error (e, i)) :
    e = .EmptyMantissa ∨ e = .EmptyExponent := by
  simp only [parseNumber] at h
  split_ifs at h
  all_goals first
    | (cases h; exact Or.inl rfl)
    | (split at h
       · cases h
         exact Or.inr (parseExponent_error _ _ _ _ (by assumption))
       · cases h)

/-- The infinity matcher only ever reports `InvalidDigit`. -/
theorem parseInf_error (neg : Bool) (digits : List Nat) (s : Nat) (e : ErrorCode) (i : Nat)
    (h : parseInf neg digits s = .error (e, i)) : e = .InvalidDigit := by
  unfold parseInf at h
  split_ifs at h
  cases h
  rfl

/-- The NaN matcher only ever reports `InvalidDigit`. -/
theorem parseNan_error (neg : Bool) (digits : List Nat) (s : Nat) (e : ErrorCode) (i : Nat)
    (h : parseNan neg digits s = .error (e, i)) : e = .InvalidDigit := by
  unfold parseNan at h
  split_ifs at h
  cases h
  rfl

/-- The sign-stripped float parse only ever reports `Empty`,
`EmptyMantissa`, `EmptyExponent` or `InvalidDigit`. -/
theorem parseFloatDigits_error (maxE minE : Int) (neg : Bool) (total : Nat)
    (digits : List Nat) (s : Nat) (e : ErrorCode) (i : Nat)
    (h : parseFloatDigits maxE minE neg total digits s = .error (e, i)) :
    e = .Empty ∨ e = .EmptyMantissa ∨ e = .EmptyExponent ∨ e = .InvalidDigit := by
  unfold parseFloatDigits at h
  split at h
  · cases h
    exact Or.inl rfl
  · split_ifs at h
    · exact Or.inr (Or.inr (Or.inr (parseInf_error _ _ _ _ _ h)))
    · exact Or.inr (Or.inr (Or.inr (parseNan_error _ _ _ _ _ h)))
    · rcases parseNumber_error _ _ _ _ _ _ _ _ h with hc | hc
      · exact Or.inr (Or.inl hc)
      · exact Or.inr (Or.inr (Or.inl hc))

/-- The float parse only ever reports `Empty`, `EmptyMantissa`,
`EmptyExponent` or `InvalidDigit`. -/
theorem parseFloat_error (maxE minE : Int) (bytes : List Nat) (e : ErrorCode) (i : Nat)
    (h : parseFloat maxE minE bytes = .error (e, i)) :
    e = .Empty ∨ e = .EmptyMantissa ∨ e = .EmptyExponent ∨ e = .InvalidDigit := by
  unfold parseFloat at h
  split_ifs at h
  · exact parseFloatDigits_error _ _ _ _ _ _ _ _ h
  · exact parseFloatDigits_error _ _ _ _ _ _ _ _ h
  · exact parseFloatDigits_error _ _ _ _ _ _ _ _ h

/-- If the `takeWhile` run stops inside `l`, appending `t` changes neither
the run nor what it leaves, beyond carrying `t` along. -/
theorem takeWhile_append_blocked (p : Nat → Bool) (l t : List Nat) (h : l.dropWhile p ≠ []) :
    (l ++ t).takeWhile p = l.takeWhile p ∧ (l ++ t).dropWhile p = l.dropWhile p ++ t := by
  constructor
  · rw [List.takeWhile_append, if_neg]
    intro hlen
    have hsum := congrArg List.length (List.takeWhile_append_dropWhile (p := p) (l := l))
    simp only [List.length_append] at hsum
    have hd0 : (l.dropWhile p).length = 0 := by omega
    exact h (List.length_eq_zero.mp hd0)
  · rw [List.dropWhile_append, if_neg]
    simp only [List.isEmpty_iff]
    exact h

/-- The head of an append is the head of the nonempty left part. -/
theorem head?_append_of_ne_nil (l t : List Nat) (h : l ≠ []) :
    (l ++ t).head? = l.head? := by
  cases l with
  | nil => exact absurd rfl h
  | cons b u => rfl

/-- The tail of an append is the tail of the nonempty left part with the
right part still attached. -/
theorem tail_append_of_ne_nil (l t : List Nat) (h : l ≠ []) :
    (l ++ t).tail = l.tail ++ t := by
  cases l with
  | nil => exact absurd rfl h
  | cons b u => rfl

/-- The exponent-sign split is unchanged by trailing bytes when something
follows the optional sign. -/
theorem expSign_append (t t' : List Nat) (h : t ≠ []) :
    expSign (t ++ t') = ((expSign t).1, (expSign t).2 ++ t') := by
  unfold expSign
  rw [head?_append_of_ne_nil t t' h]
  by_cases h43 : t.head? = some 43
  · rw [if_pos h43, if_pos h43]
    exact congrArg _ (tail_append_of_ne_nil t t' h)
  · rw [if_neg h43, if_neg h43]
    by_cases h45 : t.head? = some 45
    · rw [if_pos h45, if_pos h45]
      exact congrArg _ (tail_append_of_ne_nil t t' h)
    · rw [if_neg h45, if_neg h45]

/-- A successful exponent-digit parse that leaves bytes over is unchanged
by trailing garbage: the garbage stays in the rest. -/
theorem parseExponentDigits_ok_append (total : Nat) (t t' r3 : List Nat) (ex : Int)
    (h : parseExponentDigits total t = .ok (ex, r3)) (hne : r3 ≠ []) :
    parseExponentDigits (total + t'.length) (t ++ t') = .ok (ex, r3 ++ t') := by
  by_cases ht : t = []
  · subst ht
    simp [parseExponentDigits, expSign] at h
  · simp only [parseExponentDigits] at h ⊢
    rw [expSign_append t t' ht]
    have hblock : (expSign t).2.dropWhile isDigit ≠ [] := by
      intro hc
      by_cases heds : (expSign t).2.takeWhile isDigit = []
      · rw [if_pos heds] at h
        cases h
      · rw [if_neg heds] at h
        cases h
        exact hne (by rw [← hc])
    obtain ⟨htk, hdr⟩ := takeWhile_append_blocked isDigit (expSign t).2 t' hblock
    by_cases heds : (expSign t).2.takeWhile isDigit = []
    · rw [if_pos heds] at h
      cases h
    · rw [if_neg heds] at h
      simp only [htk, hdr]
      rw [if_neg heds]
      cases h
      rfl

/-- A successful exponent-region parse that leaves bytes over is unchanged
by trailing garbage. -/
theorem parseExponent_ok_append (total : Nat) (r2 t' r3 : List Nat) (ex : Int)
    (h : parseExponent total r2 = .ok (ex, r3)) (hne : r3 ≠ []) :
    parseExponent (total + t'.length) (r2 ++ t') = .ok (ex, r3 ++ t') := by
  by_cases hr2 : r2 = []
  · subst hr2
    simp only [parseExponent] at h
    rw [if_neg (by simp)] at h
    cases h
    exact absurd rfl hne
  · simp only [parseExponent] at h ⊢
    rw [head?_append_of_ne_nil r2 t' hr2]
    by_cases hm : r2.head? = some 101 ∨ r2.head? = some 69
    · rw [if_pos hm] at h
      rw [if_pos hm, tail_append_of_ne_nil r2 t' hr2]
      exact parseExponentDigits_ok_append total r2.tail t' r3 ex h hne
    · rw [if_neg hm] at h
      rw [if_neg hm]
      cases h
      rfl


/-- A successful number parse that stops before the end of the input is
unchanged by trailing garbage: same outcome, same consumed count. -/
theorem parseNumber_ok_append (maxE minE : Int) (neg : Bool) (total : Nat)
    (digits t' : List Nat) (s : Nat) (o : FloatOutcome) (n : Nat)
    (h : parseNumber maxE minE neg total digits s = .ok (o, n))
    (hlt : n < total) :
    parseNumber maxE minE neg (total + t'.length) (digits ++ t') s = .ok (o, n) := by
  simp only [parseNumber] at h ⊢
  set ids := digits.takeWhile isDigit with hids_def
  set r1 := digits.dropWhile isDigit with hr1_def
  set fds := (if r1.head? = some 46 then r1.tail.takeWhile isDigit else []) with hfds_def
  set r2 := (if r1.head? = some 46 then r1.tail.dropWhile isDigit else r1) with hr2_def
  by_cases hem : ids = [] ∧ fds = []
  · rw [if_pos hem] at h
    cases h
  · rw [if_neg hem] at h
    cases hpe : parseExponent total r2 with
    | error e =>
      rw [hpe] at h
      cases h
    | ok p =>
      obtain ⟨raw, r3⟩ := p
      rw [hpe] at h
      obtain ⟨ho, hn⟩ : classify maxE minE neg ids fds raw = o ∧ total - r3.length = n := by
        cases h
        exact ⟨rfl, rfl⟩
      have hr3 : r3 ≠ [] := by
        intro hc
        subst hc
        simp only [List.length_nil, Nat.sub_zero] at hn
        omega
      have hr2ne : r2 ≠ [] := by
        intro hc
        rw [hc] at hpe
        simp only [parseExponent] at hpe
        rw [if_neg (by simp)] at hpe
        cases hpe
        exact hr3 rfl
      have hr1ne : r1 ≠ [] := by
        intro hc
        rw [hr2_def, hc] at hr2ne
        simp at hr2ne
      obtain ⟨htkD, hdrD⟩ := takeWhile_append_blocked isDigit digits t' (by rw [← hr1_def]; exact hr1ne)
      rw [htkD, hdrD, ← hr1_def, ← hids_def]
      rw [head?_append_of_ne_nil r1 t' hr1ne, tail_append_of_ne_nil r1 t' hr1ne]
      by_cases h46 : r1.head? = some 46
      · have hr2eq : r2 = r1.tail.dropWhile isDigit := by
          rw [hr2_def, if_pos h46]
        have hfdseq : fds = r1.tail.takeWhile isDigit := by
          rw [hfds_def, if_pos h46]
        obtain ⟨htkT, hdrT⟩ := takeWhile_append_blocked isDigit r1.tail t' (by rw [← hr2eq]; exact hr2ne)
        rw [if_pos h46, if_pos h46, htkT, hdrT, ← hr2eq, ← hfdseq]
        rw [if_neg hem]
        rw [parseExponent_ok_append total r2 t' r3 raw hpe hr3]
        show Except.ok (classify maxE minE neg ids fds raw, total + t'.length - (r3 ++ t').length) = Except.ok (o, n)
        rw [ho]
        have hn2 : total + t'.length - (r3 ++ t').length = n := by
          simp only [List.length_append]
          omega
        rw [hn2]
      · have hr2eq : r2 = r1 := by
          rw [hr2_def, if_neg h46]
        have hfdseq : fds = [] := by
          rw [hfds_def, if_neg h46]
        rw [if_neg h46, if_neg h46]
        rw [if_neg (fun hc => hem ⟨hc.1, hfdseq⟩)]
        rw [← hr2eq]
        rw [parseExponent_ok_append total r2 t' r3 raw hpe hr3]
        rw [hfdseq] at ho
        show Except.ok (classify maxE minE neg ids [] raw, total + t'.length - (r3 ++ t').length) = Except.ok (o, n)
        rw [ho]
        have hn2 : total + t'.length - (r3 ++ t').length = n := by
          simp only [List.length_append]
          omega
        rw [hn2]


/-- A case-insensitive keyword match survives appending bytes. -/
theorem startsWithCI_append (k d t' : List Nat) (h : startsWithCI k d = true) :
    startsWithCI k (d ++ t') = true := by
  simp only [startsWithCI, List.map_append, List.isPrefixOf_iff_prefix] at h ⊢
  exact h.trans (List.prefix_append _ _)

/-- A successful infinity match still succeeds after appending bytes; the
outcome is infinity either way, though the consumed count may grow (the
long keyword is greedy: b\"infin\" ++ b\"ity\" upgrades the match). -/
theorem parseInf_ok_append (neg : Bool) (digits t' : List Nat) (s : Nat)
    (v : FloatOutcome) (n : Nat) (h : parseInf neg digits s = .ok (v, n)) :
    v = .inf neg ∧ ∃ n2, parseInf neg (digits ++ t') s = .ok (.inf neg, n2) := by
  simp only [parseInf] at h ⊢
  by_cases h8 : startsWithCI infinityStr digits = true
  · rw [if_pos h8] at h
    rw [if_pos (startsWithCI_append _ _ t' h8)]
    cases h
    exact ⟨rfl, _, rfl⟩
  · rw [if_neg h8] at h
    by_cases h3 : startsWithCI infStr digits = true
    · rw [if_pos h3] at h
      cases h
      refine ⟨rfl, ?_⟩
      by_cases h8' : startsWithCI infinityStr (digits ++ t') = true
      · rw [if_pos h8']
        exact ⟨_, rfl⟩
      · rw [if_neg h8', if_pos (startsWithCI_append _ _ t' h3)]
        exact ⟨_, rfl⟩
    · rw [if_neg h3] at h
      cases h

/-- A successful NaN match is unchanged by trailing bytes. -/
theorem parseNan_ok_append (neg : Bool) (digits t' : List Nat) (s : Nat)
    (v : FloatOutcome) (n : Nat) (h : parseNan neg digits s = .ok (v, n)) :
    parseNan neg (digits ++ t') s = .ok (v, n) := by
  simp only [parseNan] at h ⊢
  by_cases h3 : startsWithCI nanStr digits = true
  · rw [if_pos h3] at h
    rw [if_pos (startsWithCI_append _ _ t' h3)]
    exact h
  · rw [if_neg h3] at h
    cases h

/-- A successful sign-stripped float parse that stops before the end of the
input still succeeds after appending bytes. -/
theorem parseFloatDigits_ok_append (maxE minE : Int) (neg : Bool) (total : Nat)
    (digits t' : List Nat) (s : Nat) (v : FloatOutcome) (n : Nat)
    (h : parseFloatDigits maxE minE neg total digits s = .ok (v, n))
    (hlt : n < total) :
    ∃ v2 n2, parseFloatDigits maxE minE neg (total + t'.length) (digits ++ t') s = .ok (v2, n2) := by
  match digits with
  | [] =>
    simp only [parseFloatDigits] at h
    cases h
  | b :: rest =>
    simp only [parseFloatDigits, List.cons_append] at h ⊢
    by_cases hi : b = 105 ∨ b = 73
    · rw [if_pos hi] at h ⊢
      obtain ⟨_, n2, h2⟩ := parseInf_ok_append neg (b :: rest) t' s v n h
      exact ⟨.inf neg, n2, h2⟩
    · rw [if_neg hi] at h ⊢
      by_cases hn5 : b = 110 ∨ b = 78
      · rw [if_pos hn5] at h ⊢
        exact ⟨v, n, parseNan_ok_append neg (b :: rest) t' s v n h⟩
      · rw [if_neg hn5] at h ⊢
        exact ⟨v, n, parseNumber_ok_append maxE minE neg total (b :: rest) t' s v n h hlt⟩

/-- A successful float parse that stops before the end of the input still
succeeds after appending bytes. -/
theorem parseFloat_ok_append (maxE minE : Int) (bytes t' : List Nat)
    (v : FloatOutcome) (n : Nat)
    (h : parseFloat maxE minE bytes = .ok (v, n)) (hlt : n < bytes.length) :
    ∃ v2 n2, parseFloat maxE minE (bytes ++ t') = .ok (v2, n2) := by
  have hne : bytes ≠ [] := by
    intro hc
    subst hc
    simp only [parseFloat, parseFloatDigits] at h
    rw [if_neg (by simp), if_neg (by simp)] at h
    cases h
  simp only [parseFloat, head?_append_of_ne_nil bytes t' hne,
    tail_append_of_ne_nil bytes t' hne, List.length_append] at h ⊢
  by_cases h43 : bytes.head? = some 43
  · rw [if_pos h43] at h ⊢
    exact parseFloatDigits_ok_append maxE minE false bytes.length bytes.tail t' 1 v n h hlt
  · rw [if_neg h43] at h ⊢
    by_cases h45 : bytes.head? = some 45
    · rw [if_pos h45] at h ⊢
      exact parseFloatDigits_ok_append maxE minE true bytes.length bytes.tail t' 1 v n h hlt
    · rw [if_neg h45] at h ⊢
      exact parseFloatDigits_ok_append maxE minE false bytes.length bytes t' 0 v n h hlt

end LexicalSpec

namespace LexicalSpec

/-- C4: an error of the integer digit loop is `Overflow` (positive sign) or
`Underflow` (negative sign), never `InvalidDigit`; its byte index is past
the last digit accumulated without overflow, in that the digits strictly
before the error index parse cleanly and consume exactly up to it; and the
complete decimal `i64` parse of b"9223372036854775808" is
`Err(Overflow, 18)`. -/
theorem integer_overflow_error_reporting :
    (∀ (radix : Nat) (MIN MAX : Int) (neg : Bool) (bytes : List Nat) (v : Int)
        (i : Nat) (c : ErrorCode) (j : Nat),
      digitsLoop radix MIN MAX neg bytes v i = .error (c, j) →
        (c = ErrorCode.Overflow ∨ c = ErrorCode.Underflow) ∧
        c ≠ ErrorCode.InvalidDigit ∧
        (neg = false → c = ErrorCode.Overflow) ∧
        (neg = true → c = ErrorCode.Underflow) ∧
        i ≤ j ∧
        ∃ v2, digitsLoop radix MIN MAX neg (bytes.take (j - i)) v i = .ok (v2, j)) ∧
    atoiI64 [57, 50, 50, 51, 51, 55, 50, 48, 51, 54, 56, 53, 52, 55, 55, 53, 56, 48, 56] =
      .error (ErrorCode.Overflow, 18) := by
  constructor
  · intro radix MIN MAX neg bytes v i c j h
    obtain ⟨hc, hij, v2, hv2⟩ := digitsLoop_error_take radix MIN MAX neg bytes v i c j h
    cases neg with
    | false =>
      simp only [Bool.false_eq_true, if_false] at hc
      subst hc
      exact ⟨Or.inl rfl, by simp, fun _ => rfl, by simp, hij, v2, hv2⟩
    | true =>
      simp only [if_true] at hc
      subst hc
      exact ⟨Or.inr rfl, by simp, by simp, fun _ => rfl, hij, v2, hv2⟩
  · decide

/-- C6 counterexample: b"1" is a prefix of b"12" and is itself a valid
complete number, yet the partial parse of b"12" yields 12, not the 1 the
claim's universally quantified statement demands. -/
theorem partial_prefix_mismatch :
    List.isPrefixOf [49] [49, 50] = true ∧
    atoiI64 [49] = .ok 1 ∧
    atoiPartialI64 [49, 50] = .ok (12, 2) ∧
    (12 : Int) ≠ 1 := by
  refine ⟨by decide, by decide, by decide, by decide⟩

/-- C6 (amended): the prefix of the input of length exactly the consumed
count of a successful partial parse is a valid complete number whose
complete parse returns the partial parse's value. -/
theorem partial_consumed_prefix_agrees (radix : Nat) (MIN MAX : Int)
    (bytes : List Nat) (v : Int) (n : Nat)
    (h : atoiPartial radix MIN MAX bytes = .ok (v, n)) :
    to_complete (atoiPartial radix MIN MAX) (bytes.take n) = .ok v := by
  obtain ⟨h1, hlen, htake⟩ := atoiPartial_ok_take radix MIN MAX bytes v n h
  unfold to_complete
  rw [htake]
  show (if n = (List.take n bytes).length then Except.ok v
      else Except.error (ErrorCode.InvalidDigit, n)) = Except.ok v
  rw [if_pos]
  rw [List.length_take]
  omega

/-- C6 witness: the amended statement at the decimal `i64` parse of b"12."
(value 12, consumed 2): the complete parse of the consumed prefix b"12"
returns 12. -/
theorem partial_consumed_prefix_agrees_witness :
    to_complete (atoiPartial 10 i64MIN i64MAX) (([49, 50, 46] : List Nat).take 2) =
      .ok 12 :=
  partial_consumed_prefix_agrees 10 i64MIN i64MAX [49, 50, 46] 12 2 (by decide)

/-- C5: `to_complete` turns a partial parse into a complete one succeeding
exactly when the partial parse consumed the whole input, and reporting
`InvalidDigit` at the consumed index when the partial parse stopped short;
the partial integer parse never errors because of trailing bytes (appending
anything after a partial success that stopped inside the input changes
nothing); the partial float parse likewise still succeeds after appending
anything; and the partial `f32` parse of b"1.0." is `Ok((1.0, 3))`. -/
theorem partial_complete_agreement :
    (∀ (α : Type) (p : List Nat → Except (ErrorCode × Nat) (α × Nat))
        (bytes : List Nat) (v : α),
      to_complete p bytes = .ok v ↔ p bytes = .ok (v, bytes.length)) ∧
    (∀ (α : Type) (p : List Nat → Except (ErrorCode × Nat) (α × Nat))
        (bytes : List Nat) (v : α) (n : Nat),
      p bytes = .ok (v, n) → n < bytes.length →
      to_complete p bytes = .error (.InvalidDigit, n)) ∧
    (∀ (radix : Nat) (MIN MAX : Int) (bytes : List Nat) (v : Int) (n : Nat) (t : List Nat),
      atoiPartial radix MIN MAX bytes = .ok (v, n) → n < bytes.length →
      atoiPartial radix MIN MAX (bytes ++ t) = .ok (v, n)) ∧
    (∀ (maxE minE : Int) (bytes : List Nat) (v : FloatOutcome) (n : Nat) (t : List Nat),
      parseFloat maxE minE bytes = .ok (v, n) → n < bytes.length →
      ∃ v2 n2, parseFloat maxE minE (bytes ++ t) = .ok (v2, n2)) ∧
    parseF32 [49, 46, 48, 46] = .ok (.finite false 1, 3) := by
  refine ⟨?_, ?_, ?_, ?_, by decide⟩
  · intro α p bytes v
    unfold to_complete
    cases hp : p bytes with
    | error e => simp
    | ok r =>
      obtain ⟨v2, n2⟩ := r
      by_cases hn : n2 = bytes.length
      · subst hn
        simp
      · simp [hn]
  · intro α p bytes v n hp hlt
    unfold to_complete
    rw [hp]
    show (if n = bytes.length then Except.ok v
        else Except.error (ErrorCode.InvalidDigit, n)) = Except.error (.InvalidDigit, n)
    rw [if_neg]
    omega
  · intro radix MIN MAX bytes v n t h hlt
    exact atoiPartial_ok_append radix MIN MAX bytes v n t h hlt
  · intro maxE minE bytes v n t h hlt
    exact parseFloat_ok_append maxE minE bytes t v n h hlt

/-- C3: the float parse never reports `Overflow` or `Underflow`;
b"2e200000000000" parses to `+Infinity` (consuming all 14 bytes),
b"-2e200000000000" to `-Infinity` and b"2e-200000000000" to `+0`; and
`into_float` exports an exponent at or past the maximum as the infinity
bit pattern and a sub-denormal exponent as zero. -/
theorem float_parse_saturates_no_overflow_error :
    (∀ (bytes : List Nat) (e : ErrorCode) (i : Nat),
      parseF64 bytes = .error (e, i) → e ≠ .Overflow ∧ e ≠ .Underflow) ∧
    parseF64 [50, 101, 50, 48, 48, 48, 48, 48, 48, 48, 48, 48, 48, 48] =
      .ok (.inf false, 14) ∧
    parseF64 [45, 50, 101, 50, 48, 48, 48, 48, 48, 48, 48, 48, 48, 48, 48] =
      .ok (.inf true, 15) ∧
    parseF64 [50, 101, 45, 50, 48, 48, 48, 48, 48, 48, 48, 48, 48, 48, 48] =
      .ok (.zero false, 15) ∧
    (∀ fp : ExtendedFloat, fp.mant ≠ 0 → f64Layout.MAX_EXPONENT ≤ fp.exp →
      into_float f64Layout fp = f64Layout.INFINITY_BITS) ∧
    (∀ fp : ExtendedFloat, fp.exp < f64Layout.DENORMAL_EXPONENT →
      into_float f64Layout fp = 0) := by
  refine ⟨?_, by decide, by decide, by decide, ?_, ?_⟩
  · intro bytes e i h
    rcases parseFloat_error _ _ _ _ _ h with hc | hc | hc | hc <;> subst hc <;>
      exact ⟨by simp, by simp⟩
  · intro fp hm he
    unfold into_float
    rw [if_neg, if_pos he]
    push_neg
    refine ⟨hm, ?_⟩
    have hlt : f64Layout.DENORMAL_EXPONENT < f64Layout.MAX_EXPONENT := by decide
    omega
  · intro fp he
    unfold into_float
    rw [if_pos (Or.inr he)]

end LexicalSpec
